import Mathlib

/-!
Verification development for the asset-allocation dashboard (`src/app.py`,
`utils.py`).  The allocation engine is embedded shallowly: Python dicts become
insertion-ordered association lists over `String` keys, floats become `ℚ`
(exact real arithmetic; binary rounding of the host floats is not modelled),
and fallible dictionary / index accesses (Python `KeyError` / `IndexError`)
become `Option`-valued computations where `none` models a raised exception.
-/

namespace TAA

/-- A Python `dict` with string keys: an insertion-ordered association list. -/
abbrev Dict (α : Type) := List (String × α)

/-- `d[k]` as a fallible lookup: the value at the first matching key. -/
def Dict.find? {α : Type} (d : Dict α) (k : String) : Option α :=
  (List.find? (fun kv => kv.1 = k) d).map Prod.snd

/-- Lookup with a default value. -/
def Dict.findD {α : Type} (d : Dict α) (k : String) (dflt : α) : α :=
  (Dict.find? d k).getD dflt

/-- The key list of a dict (`d.keys()`), in insertion order. -/
def Dict.keys {α : Type} (d : Dict α) : List String :=
  d.map Prod.fst

/-- The value list of a dict (`d.values()`), in insertion order. -/
def Dict.values {α : Type} (d : Dict α) : List α :=
  d.map Prod.snd

/-- Map a fallible function over a list, failing when any element fails;
`none` models an exception escaping a Python comprehension. -/
def mapOption {α β : Type} (f : α → Option β) : List α → Option (List β)
  | [] => some []
  | a :: as =>
    match f a, mapOption f as with
    | some b, some bs => some (b :: bs)
    | _, _ => none

/-- `s.lower()` (ASCII case folding, which covers every label the app uses). -/
def pyLower (s : String) : String :=
  String.mk (s.data.map Char.toLower)

/-- `s.replace(" ", "_")`: the pattern is one character, so it is a
character-wise map. -/
def pyReplaceSpace (s : String) : String :=
  String.mk (s.data.map (fun c => if c = ' ' then '_' else c))

/-- `asset.lower().replace(" ", "_")` — the label-derived active-weight key
used by `compute_tactical_allocations` (app.py line 47). -/
def pyKey (s : String) : String :=
  pyReplaceSpace (pyLower s)

/-- The inner comprehension of `compute_tactical_allocations` (app.py
lines 46–49): walk `profiles` with the running index `i`, and for each
profile `p` produce `strategic_row[i] + multipliers[p] * active_weights[key]`.
Each subscript is a fallible access. -/
def tacticalRowGo (row : List ℚ) (multipliers active_weights : Dict ℚ)
    (key : String) : Nat → List String → Option (List ℚ)
  | _, [] => some []
  | i, p :: ps =>
    match row.get? i, Dict.find? multipliers p, Dict.find? active_weights key with
    | some s, some m, some w =>
      (tacticalRowGo row multipliers active_weights key (i + 1) ps).map
        (fun rest => (s + m * w) :: rest)
    | _, _, _ => none

/-- `compute_tactical_allocations` (app.py lines 25–51): a dict comprehension
over the strategic table's keys; each asset's tactical row is built by
`tacticalRowGo` with the label-derived active-weight key `pyKey asset`. -/
def compute_tactical_allocations (strategic_allocations : Dict (List ℚ))
    (multipliers : Dict ℚ) (profiles : List String)
    (active_weights : Dict ℚ) : Option (Dict (List ℚ)) :=
  mapOption
    (fun kv =>
      (tacticalRowGo kv.2 multipliers active_weights (pyKey kv.1) 0 profiles).map
        (fun r => (kv.1, r)))
    strategic_allocations

/-- The level-1 active-weight dict built in `main` (app.py lines 247–255):
`equities` is the user's scalar, `fixed_income` its negation, `cash` zero. -/
def moderate_active_weight (w : ℚ) : Dict ℚ :=
  [("equities", w), ("fixed_income", -w), ("cash", 0)]

/-- Sum of a tactical table's column `i` (one value per asset class). -/
def columnSum (t : Dict (List ℚ)) (i : Nat) : ℚ :=
  (t.map (fun kv => kv.2.getD i 0)).sum

/-- The zero-sum check performed on an active-weight dict
(app.py lines 114–117): `true` (the success branch) exactly when the sum of
the values equals zero; otherwise the error branch runs. -/
def validate_active_weights (ws : Dict ℚ) : Bool :=
  decide ((ws.map Prod.snd).sum = 0)

/-- The slider loop of `input_active_weights` (app.py lines 106–113): each
label keeps its position and receives the value chosen by the user, modelled
by the oracle `user : String → ℚ`. -/
def enteredWeights (default_weights : Dict ℚ) (user : String → ℚ) : Dict ℚ :=
  default_weights.map (fun kv => (kv.1, user kv.1))

/-- `input_active_weights` (app.py lines 85–118): collect the slider values,
emit the zero-sum status (the `st.error` / `st.success` side effect, second
component), and return the adjusted weights (first component). -/
def input_active_weights (default_weights : Dict ℚ) (user : String → ℚ) :
    Dict ℚ × Bool :=
  let entered := enteredWeights default_weights user
  (entered, validate_active_weights entered)

/-- `compute_level_2_tactical_allocations` (app.py lines 121–146): a dict
comprehension over the baseline's keys; the `active_weights[key]` subscript
raises `KeyError` (here `none`) when the key is absent. -/
def compute_level_2_tactical_allocations (base_allocations active_weights : Dict ℚ) :
    Option (Dict ℚ) :=
  mapOption
    (fun kv => (Dict.find? active_weights kv.1).map (fun w => (kv.1, kv.2 + w)))
    base_allocations

/-- Column type of the allocation tables: the `Type` level of the
`(Profile, Type)` MultiIndex. -/
inductive AllocType : Type
  | strategic
  | tactical
deriving DecidableEq

/-- A row of the total-allocation table: a cell per `(Profile, Type)` column;
`none` models a pandas `NaN` cell (the freshly created empty frame). -/
abbrev TotalRow := String → AllocType → Option ℚ

/-- The total-allocation table: labelled rows in index order. -/
abbrev TotalTable := List (String × TotalRow)

/-- `df.loc[k] = r` (whole-row assignment): every row labelled `k` is
replaced; a missing label is appended at the end (pandas enlargement). -/
def setRowFull (t : TotalTable) (k : String) (r : TotalRow) : TotalTable :=
  if t.any (fun kv => kv.1 = k) then
    t.map (fun kv => if kv.1 = k then (kv.1, r) else kv)
  else t ++ [(k, r)]

/-- `df.loc[k, pd.IndexSlice[:, typ]] = f` (one `Type` slice of a row): the
`typ` cells of every row labelled `k` are replaced, the other cells kept. -/
def setRowTyp (t : TotalTable) (k : String) (typ : AllocType)
    (f : String → Option ℚ) : TotalTable :=
  t.map (fun kv =>
    if kv.1 = k then (kv.1, fun p ty => if ty = typ then f p else kv.2 p ty)
    else kv)

/-- `df.loc[k]` as a read, defaulting to an all-`NaN` row for an absent
label (reads in `compute_total_allocations` only target labels that are in
the index by construction). -/
def getRowD (t : TotalTable) (k : String) : TotalRow :=
  ((List.find? (fun kv => kv.1 = k) t).map Prod.snd).getD (fun _ _ => none)

/-- A cell of the table, defaulting to `0` for `NaN`. -/
def cellD (t : TotalTable) (k p : String) (ty : AllocType) : ℚ :=
  (getRowD t k p ty).getD 0

/-- The first loop of `compute_total_allocations` (app.py lines 218–219):
`df_total.loc[k] = level_1_df.loc[k]` for each level-1 class `k`; the read
from `level_1_df` is fallible. -/
def assignLevel1 (level1 : Dict (String → AllocType → ℚ)) :
    List String → TotalTable → Option TotalTable
  | [], t => some t
  | k :: ks, t =>
    match Dict.find? level1 k with
    | some r => assignLevel1 level1 ks (setRowFull t k (fun p ty => some (r p ty)))
    | none => none

/-- The level-2 loops of `compute_total_allocations` (app.py lines 220–229):
for each sub-class row, for `typ` in `[Strategic, Tactical]` (in that order),
assign `own_percentage[typ] * df_total.loc[parent, (:, typ)] / 100`, reading
the parent row from the current state of the table. -/
def applyLevel2 (parent : String) : Dict (AllocType → ℚ) → TotalTable → TotalTable
  | [], t => t
  | kv :: rest, t =>
    let t1 := setRowTyp t kv.1 .strategic
      (fun p => (getRowD t parent p .strategic).map
        (fun x => kv.2 .strategic * x / 100))
    let t2 := setRowTyp t1 kv.1 .tactical
      (fun p => (getRowD t1 parent p .tactical).map
        (fun x => kv.2 .tactical * x / 100))
    applyLevel2 parent rest t2

/-- The empty frame of `compute_total_allocations` (app.py lines 215–217):
the interleaved index `['Equities'] + equities subclasses + ['Fixed Income']
+ fixed-income subclasses + ['Cash']`, every cell `NaN`. -/
def initTotal (equities fixedIncome : Dict (AllocType → ℚ)) : TotalTable :=
  (["Equities"] ++ equities.map Prod.fst
    ++ ["Fixed Income"] ++ fixedIncome.map Prod.fst ++ ["Cash"]).map
    (fun k => (k, fun _ _ => none))

/-- `compute_total_allocations` (app.py lines 190–230): start from the
all-`NaN` frame over the interleaved index, copy every level-1 row, then
re-base the equities sub-classes from the `Equities` row and the fixed-income
sub-classes from the `Fixed Income` row. -/
def compute_total_allocations (level1 : Dict (String → AllocType → ℚ))
    (equities fixedIncome : Dict (AllocType → ℚ))
    (strategicKeys : List String) : Option TotalTable :=
  (assignLevel1 level1 strategicKeys (initTotal equities fixedIncome)).map
    (fun t1 => applyLevel2 "Fixed Income" fixedIncome
      (applyLevel2 "Equities" equities t1))

/-- A concrete level-1 table: `Equities` 60 strategic / 62 tactical,
`Fixed Income` 35 / 33, `Cash` 5 / 5, for every profile. -/
def sampleLevel1 : Dict (String → AllocType → ℚ) :=
  [("Equities", fun _ ty => if ty = AllocType.tactical then 62 else 60),
   ("Fixed Income", fun _ ty => if ty = AllocType.tactical then 33 else 35),
   ("Cash", fun _ _ => 5)]

/-- A concrete equities level-2 table (own-percentages sum to 100). -/
def sampleEquities : Dict (AllocType → ℚ) :=
  [("Large Cap Growth", fun _ => 30), ("Other Equity", fun _ => 70)]

/-- A concrete fixed-income level-2 table (own-percentages sum to 100). -/
def sampleFixedIncome : Dict (AllocType → ℚ) :=
  [("Government", fun _ => 40), ("Corporate", fun _ => 60)]

/-- The level-1 class list of the app's configuration. -/
def sampleStrategicKeys : List String := ["Equities", "Fixed Income", "Cash"]

/-- The tactical level-1 table a successful run returns (`[]` is never
reached when the computation succeeds). -/
def tacticalD (strategic_allocations : Dict (List ℚ)) (multipliers : Dict ℚ)
    (profiles : List String) (active_weights : Dict ℚ) : Dict (List ℚ) :=
  (compute_tactical_allocations strategic_allocations multipliers profiles
    active_weights).getD []

/-- The tactical level-2 table a successful run returns. -/
def level2D (base_allocations active_weights : Dict ℚ) : Dict ℚ :=
  (compute_level_2_tactical_allocations base_allocations active_weights).getD []

/-- The total-allocation table a successful run returns. -/
def totalD (level1 : Dict (String → AllocType → ℚ))
    (equities fixedIncome : Dict (AllocType → ℚ))
    (strategicKeys : List String) : TotalTable :=
  (compute_total_allocations level1 equities fixedIncome strategicKeys).getD []

end TAA

example : TAA.pyKey "Fixed Income" = "fixed_income" := by decide

example :
    TAA.compute_tactical_allocations
      [("Equities", [(70 : ℚ), 60, 50]), ("Fixed Income", [25, 35, 45]), ("Cash", [5, 5, 5])]
      [("Aggressive", (3 : ℚ)/2), ("Moderate", 1), ("Conservative", 1/2)]
      ["Aggressive", "Moderate", "Conservative"]
      (TAA.moderate_active_weight 2)
    = some [("Equities", [73, 62, 51]), ("Fixed Income", [22, 33, 44]), ("Cash", [5, 5, 5])] := by
  have h1 : TAA.pyKey "Equities" = "equities" := by decide
  have h2 : TAA.pyKey "Fixed Income" = "fixed_income" := by decide
  have h3 : TAA.pyKey "Cash" = "cash" := by decide
  simp [TAA.compute_tactical_allocations, TAA.mapOption, TAA.tacticalRowGo,
    TAA.Dict.find?, TAA.moderate_active_weight, h1, h2, h3, List.find?]
  norm_num

example :
    TAA.compute_level_2_tactical_allocations [("x", (60 : ℚ)), ("y", 40)]
      [("x", (5 : ℚ)), ("y", -5)] = some [("x", 65), ("y", 35)] := by
  simp [TAA.compute_level_2_tactical_allocations, TAA.mapOption, TAA.Dict.find?,
    List.find?]
  norm_num

example :
    TAA.cellD ((TAA.compute_total_allocations
      [("Equities", fun _ _ => (62 : ℚ)), ("Fixed Income", fun _ _ => 33),
        ("Cash", fun _ _ => 5)]
      [("Large Cap Growth", fun _ => (30 : ℚ)), ("Other Eq", fun _ => 70)]
      [("Govt", fun _ => (100 : ℚ))]
      ["Equities", "Fixed Income", "Cash"]).getD [])
      "Large Cap Growth" "Moderate" .tactical = 93/5 := by
  simp [TAA.compute_total_allocations, TAA.initTotal, TAA.assignLevel1,
    TAA.applyLevel2, TAA.Dict.find?, List.find?, TAA.setRowFull, TAA.setRowTyp,
    TAA.getRowD, TAA.cellD, List.any]
  norm_num

namespace TAA

/-- An element exists at every index below the length. -/
theorem get?_exists_of_lt {α : Type} {l : List α} {i : Nat} (h : i < l.length) :
    ∃ a, l.get? i = some a := by
  cases hc : l.get? i with
  | none => exact absurd (List.get?_eq_none.mp hc) (by omega)
  | some a => exact ⟨a, rfl⟩

/-- `getD` returns the element `get?` found. -/
theorem getD_of_get? {α : Type} {l : List α} {i : Nat} {a : α} (d : α)
    (h : l.get? i = some a) : l.getD i d = a := by
  rw [List.getD_eq_getElem?_getD, ← List.get?_eq_getElem?, h]
  rfl

/-- A successful `mapOption` run has one output per input, in order. -/
theorem mapOption_some_spec {α β : Type} (f : α → Option β) :
    ∀ (l : List α) (r : List β), mapOption f l = some r →
      r.length = l.length ∧
      ∀ j a, l.get? j = some a → ∃ b, f a = some b ∧ r.get? j = some b := by
  intro l
  induction l with
  | nil =>
    intro r h
    simp only [mapOption, Option.some.injEq] at h
    subst h
    exact ⟨rfl, by intro j a h; simp at h⟩
  | cons a as ih =>
    intro r h
    simp only [mapOption] at h
    cases hfa : f a with
    | none =>
      rw [hfa] at h
      cases mapOption f as <;> simp at h
    | some b =>
      rw [hfa] at h
      cases hrest : mapOption f as with
      | none => rw [hrest] at h; simp at h
      | some bs =>
        rw [hrest] at h
        simp only [Option.some.injEq] at h
        subst h
        obtain ⟨hlen, hpt⟩ := ih bs hrest
        refine ⟨by simp [hlen], ?_⟩
        intro j a' hj
        cases j with
        | zero =>
          rw [List.get?_cons_zero] at hj
          cases hj
          exact ⟨b, hfa, by simp⟩
        | succ j =>
          rw [List.get?_cons_succ] at hj
          obtain ⟨b', hb1, hb2⟩ := hpt j a' hj
          exact ⟨b', hb1, by simpa using hb2⟩

/-- `mapOption` succeeds when every element succeeds. -/
theorem mapOption_isSome {α β : Type} (f : α → Option β) :
    ∀ l : List α, (∀ a ∈ l, (f a).isSome = true) →
      (mapOption f l).isSome = true := by
  intro l
  induction l with
  | nil => intro _; simp [mapOption]
  | cons a as ih =>
    intro hall
    obtain ⟨b, hb⟩ := Option.isSome_iff_exists.mp (hall a (by simp))
    obtain ⟨bs, hbs⟩ := Option.isSome_iff_exists.mp
      (ih (fun x hx => hall x (by simp [hx])))
    simp [mapOption, hb, hbs]

/-- `mapOption` fails exactly when some element fails. -/
theorem mapOption_eq_none_iff {α β : Type} (f : α → Option β) :
    ∀ l : List α, mapOption f l = none ↔ ∃ a ∈ l, f a = none := by
  intro l
  induction l with
  | nil => simp [mapOption]
  | cons a as ih =>
    constructor
    · intro h
      simp only [mapOption] at h
      cases hfa : f a with
      | none => exact ⟨a, by simp, hfa⟩
      | some b =>
        rw [hfa] at h
        cases hrest : mapOption f as with
        | none =>
          obtain ⟨x, hx, hfx⟩ := ih.mp hrest
          exact ⟨x, by simp [hx], hfx⟩
        | some bs => rw [hrest] at h; simp at h
    · rintro ⟨x, hx, hfx⟩
      rcases List.mem_cons.mp hx with rfl | hx'
      · simp [mapOption, hfx]
      · have : mapOption f as = none := ih.mpr ⟨x, hx', hfx⟩
        cases f a <;> simp [mapOption, this]

/-- The outputs of a successful `mapOption` run project like the inputs. -/
theorem mapOption_keys {α β γ : Type} (f : α → Option β) (g : β → γ) (g' : α → γ)
    (hfg : ∀ a b, f a = some b → g b = g' a) :
    ∀ (l : List α) (r : List β), mapOption f l = some r →
      r.map g = l.map g' := by
  intro l
  induction l with
  | nil => intro r h; simp only [mapOption, Option.some.injEq] at h; subst h; rfl
  | cons a as ih =>
    intro r h
    simp only [mapOption] at h
    cases hfa : f a with
    | none => rw [hfa] at h; cases mapOption f as <;> simp at h
    | some b =>
      rw [hfa] at h
      cases hrest : mapOption f as with
      | none => rw [hrest] at h; simp at h
      | some bs =>
        rw [hrest] at h
        simp only [Option.some.injEq] at h
        subst h
        simp [hfg a b hfa, ih bs hrest]

end TAA

namespace TAA

/-- What each entry of a successful `tacticalRowGo` run is: the strategic
value at the running index plus the profile multiplier times the looked-up
active weight. -/
theorem tacticalRowGo_some_spec (row : List ℚ) (M AW : Dict ℚ) (key : String) :
    ∀ (ps : List String) (i : Nat) (r : List ℚ),
      tacticalRowGo row M AW key i ps = some r →
      r.length = ps.length ∧
      ∀ j p, ps.get? j = some p → ∃ s m w,
        row.get? (i + j) = some s ∧ Dict.find? M p = some m ∧
        Dict.find? AW key = some w ∧ r.get? j = some (s + m * w) := by
  intro ps
  induction ps with
  | nil =>
    intro i r h
    simp only [tacticalRowGo, Option.some.injEq] at h
    subst h
    exact ⟨rfl, by intro j p hp; simp at hp⟩
  | cons p ps ih =>
    intro i r h
    simp only [tacticalRowGo] at h
    rcases hs : row.get? i with _ | s <;> rw [hs] at h
    · cases Dict.find? M p <;> cases Dict.find? AW key <;> simp at h
    rcases hm : Dict.find? M p with _ | m <;> rw [hm] at h
    · cases Dict.find? AW key <;> simp at h
    rcases hw : Dict.find? AW key with _ | w <;> rw [hw] at h
    · simp at h
    rcases hrec : tacticalRowGo row M AW key (i + 1) ps with _ | rest <;>
      rw [hrec] at h
    · simp at h
    simp only [Option.map_some', Option.some.injEq] at h
    subst h
    obtain ⟨hlen, hpt⟩ := ih (i + 1) rest hrec
    refine ⟨by simp [hlen], ?_⟩
    intro j q hq
    cases j with
    | zero =>
      rw [List.get?_cons_zero] at hq
      cases hq
      exact ⟨s, m, w, by simpa using hs, hm, rfl, by simp⟩
    | succ j =>
      rw [List.get?_cons_succ] at hq
      obtain ⟨s', m', w', h1, h2, h3, h4⟩ := hpt j q hq
      refine ⟨s', m', w', ?_, h2, by rw [← hw]; exact h3, by simpa using h4⟩
      rw [show i + (j + 1) = i + 1 + j from by omega]
      exact h1

/-- `tacticalRowGo` succeeds when every lookup it performs succeeds. -/
theorem tacticalRowGo_isSome (row : List ℚ) (M AW : Dict ℚ) (key : String)
    (hw : (Dict.find? AW key).isSome = true) :
    ∀ (ps : List String) (i : Nat),
      (∀ p ∈ ps, (Dict.find? M p).isSome = true) →
      i + ps.length ≤ row.length →
      (tacticalRowGo row M AW key i ps).isSome = true := by
  intro ps
  induction ps with
  | nil => intro i _ _; simp [tacticalRowGo]
  | cons p ps ih =>
    intro i hm hlen
    have hi : i < row.length := by simp at hlen; omega
    obtain ⟨s, hs⟩ := get?_exists_of_lt hi
    obtain ⟨m, hmp⟩ := Option.isSome_iff_exists.mp (hm p (by simp))
    obtain ⟨w, hwv⟩ := Option.isSome_iff_exists.mp hw
    have hrec := ih (i + 1) (fun q hq => hm q (by simp [hq])) (by simp at hlen ⊢; omega)
    obtain ⟨rest, hrest⟩ := Option.isSome_iff_exists.mp hrec
    simp only [tacticalRowGo, hs, hmp, hwv, hrest, Option.map_some',
      Option.isSome_some]

/-- Structure of a successful `compute_tactical_allocations` run: keys are
preserved in order, and row `j` of the output is `tacticalRowGo` on row `j`
of the strategic table. -/
theorem compute_tactical_some_spec (S : Dict (List ℚ)) (M : Dict ℚ)
    (ps : List String) (AW : Dict ℚ) (T : Dict (List ℚ))
    (h : compute_tactical_allocations S M ps AW = some T) :
    T.map Prod.fst = S.map Prod.fst ∧
    T.length = S.length ∧
    ∀ j kv, S.get? j = some kv → ∃ r,
      tacticalRowGo kv.2 M AW (pyKey kv.1) 0 ps = some r ∧
      T.get? j = some (kv.1, r) := by
  have h' : mapOption
      (fun kv : String × List ℚ =>
        (tacticalRowGo kv.2 M AW (pyKey kv.1) 0 ps).map (fun r => (kv.1, r)))
      S = some T := h
  have hkeys := mapOption_keys
    (fun kv : String × List ℚ =>
      (tacticalRowGo kv.2 M AW (pyKey kv.1) 0 ps).map (fun r => (kv.1, r)))
    Prod.fst Prod.fst
    (by
      intro a b hab
      rcases Option.map_eq_some'.mp hab with ⟨r, _, rfl⟩
      rfl)
    S T h'
  obtain ⟨hlen, hpt⟩ := mapOption_some_spec _ S T h'
  refine ⟨hkeys, hlen, ?_⟩
  intro j kv hj
  obtain ⟨b, hb1, hb2⟩ := hpt j kv hj
  rcases Option.map_eq_some'.mp hb1 with ⟨r, hr, rfl⟩
  exact ⟨r, hr, hb2⟩

/-- `compute_tactical_allocations` succeeds when every profile has a
multiplier, every asset's derived key has an active weight, and every
strategic row reaches every profile index. -/
theorem compute_tactical_isSome (S : Dict (List ℚ)) (M : Dict ℚ)
    (ps : List String) (AW : Dict ℚ)
    (hm : ∀ p ∈ ps, (Dict.find? M p).isSome = true)
    (hw : ∀ kv ∈ S, (Dict.find? AW (pyKey kv.1)).isSome = true)
    (hl : ∀ kv ∈ S, ps.length ≤ kv.2.length) :
    (compute_tactical_allocations S M ps AW).isSome = true := by
  apply mapOption_isSome
  intro kv hkv
  have h1 := tacticalRowGo_isSome kv.2 M AW (pyKey kv.1) (hw kv hkv) ps 0 hm
    (by simpa using hl kv hkv)
  obtain ⟨r, hr⟩ := Option.isSome_iff_exists.mp h1
  simp [hr]

/-- Lookup of the `equities` entry of the level-1 active-weight dict. -/
theorem maw_find_equities (w : ℚ) :
    Dict.find? (moderate_active_weight w) "equities" = some w := rfl

/-- Lookup of the `fixed_income` entry of the level-1 active-weight dict. -/
theorem maw_find_fixed_income (w : ℚ) :
    Dict.find? (moderate_active_weight w) "fixed_income" = some (-w) := rfl

/-- Lookup of the `cash` entry of the level-1 active-weight dict. -/
theorem maw_find_cash (w : ℚ) :
    Dict.find? (moderate_active_weight w) "cash" = some 0 := rfl

end TAA

namespace TAA

/-- C1 (amended): whenever `compute_tactical_allocations` completes, the
output keeps the strategic table's asset-class keys in order, each output row
has one entry per profile (not necessarily the strategic row's length), and
entry `i` of asset `a`'s row is
`strategic[a][i] + multipliers[profiles[i]] * active_weights[pyKey a]`. -/
theorem claim_C1_tactical_formula (S : Dict (List ℚ)) (M : Dict ℚ)
    (ps : List String) (AW : Dict ℚ)
    (h : (compute_tactical_allocations S M ps AW).isSome = true) :
    (tacticalD S M ps AW).map Prod.fst = S.map Prod.fst ∧
    (∀ kv ∈ tacticalD S M ps AW, kv.2.length = ps.length) ∧
    ∀ j kv, S.get? j = some kv → ∃ r,
      (tacticalD S M ps AW).get? j = some (kv.1, r) ∧
      ∀ i p, ps.get? i = some p → ∃ s m w,
        kv.2.get? i = some s ∧ Dict.find? M p = some m ∧
        Dict.find? AW (pyKey kv.1) = some w ∧ r.get? i = some (s + m * w) := by
  obtain ⟨T, hT⟩ := Option.isSome_iff_exists.mp h
  have hD : tacticalD S M ps AW = T := by simp [tacticalD, hT]
  obtain ⟨hkeys, hlen, hpt⟩ := compute_tactical_some_spec S M ps AW T hT
  rw [hD]
  refine ⟨hkeys, ?_, ?_⟩
  · intro kv hkv
    obtain ⟨j, hj⟩ := List.mem_iff_get?.mp hkv
    have hjlt : j < T.length := (List.get?_eq_some.mp hj).1
    have hjS : j < S.length := by omega
    obtain ⟨a, ha⟩ := get?_exists_of_lt hjS
    obtain ⟨r, hr1, hr2⟩ := hpt j a ha
    have hkvr : kv = (a.1, r) := by
      have := hj.symm.trans hr2
      exact Option.some.inj this
    have hrlen := (tacticalRowGo_some_spec a.2 M AW (pyKey a.1) ps 0 r hr1).1
    rw [hkvr]
    exact hrlen
  · intro j kv hj
    obtain ⟨r, hr1, hr2⟩ := hpt j kv hj
    refine ⟨r, hr2, ?_⟩
    intro i p hip
    obtain ⟨_, hptr⟩ := tacticalRowGo_some_spec kv.2 M AW (pyKey kv.1) ps 0 r hr1
    obtain ⟨s, m, w, h1, h2, h3, h4⟩ := hptr i p hip
    exact ⟨s, m, w, by simpa using h1, h2, h3, h4⟩

/-- C1 counterexample: with strategic row `[1, 2]` but a single profile, the
computation completes and returns row `[1]`, whose length differs from the
strategic row's — the output does not have identical shape to the input. -/
theorem claim_C1_counterexample :
    compute_tactical_allocations [("A", [(1 : ℚ), 2])] [("p", (1 : ℚ))] ["p"]
      [("a", (0 : ℚ))] = some [("A", [(1 : ℚ)])] ∧
    ([(1 : ℚ)]).length ≠ ([(1 : ℚ), 2]).length := by
  constructor
  · have hk : pyKey "A" = "a" := by decide
    have harith : (1 : ℚ) + 1 * 0 = 1 := by norm_num
    simp [compute_tactical_allocations, mapOption, tacticalRowGo, Dict.find?,
      hk, List.find?, harith]
  · simp

/-- C1 witness: a fully aligned concrete run keeps the asset-class keys. -/
theorem claim_C1_witness :
    (tacticalD [("Equities", [(70 : ℚ), 60])]
      [("Aggressive", (3 : ℚ)/2), ("Moderate", 1)] ["Aggressive", "Moderate"]
      [("equities", (2 : ℚ))]).map Prod.fst
      = [("Equities", [(70 : ℚ), 60])].map Prod.fst :=
  (claim_C1_tactical_formula [("Equities", [(70 : ℚ), 60])]
    [("Aggressive", (3 : ℚ)/2), ("Moderate", 1)] ["Aggressive", "Moderate"]
    [("equities", (2 : ℚ))] (by decide)).1

/-- C3: with the three level-1 classes, per-profile strategic column sums of
100, and the zero-sum active-weight dict built by `main` from the scalar `w`,
every profile's tactical column again sums to exactly 100. -/
theorem claim_C3_row_sum_preservation (e f c : List ℚ) (M : Dict ℚ)
    (ps : List String) (w : ℚ)
    (hm : ∀ p ∈ ps, (Dict.find? M p).isSome = true)
    (hle : ps.length ≤ e.length) (hlf : ps.length ≤ f.length)
    (hlc : ps.length ≤ c.length)
    (hsum : ∀ i, i < ps.length → e.getD i 0 + f.getD i 0 + c.getD i 0 = 100) :
    (compute_tactical_allocations
        [("Equities", e), ("Fixed Income", f), ("Cash", c)] M ps
        (moderate_active_weight w)).isSome = true ∧
    ∀ i, i < ps.length →
      columnSum (tacticalD [("Equities", e), ("Fixed Income", f), ("Cash", c)]
        M ps (moderate_active_weight w)) i = 100 := by
  have hkE : pyKey "Equities" = "equities" := by decide
  have hkF : pyKey "Fixed Income" = "fixed_income" := by decide
  have hkC : pyKey "Cash" = "cash" := by decide
  have hwall : ∀ kv ∈ [("Equities", e), ("Fixed Income", f), ("Cash", c)],
      (Dict.find? (moderate_active_weight w) (pyKey kv.1)).isSome = true := by
    intro kv hkv
    simp only [List.mem_cons, List.not_mem_nil, or_false] at hkv
    rcases hkv with rfl | rfl | rfl
    · rw [hkE, maw_find_equities]; rfl
    · rw [hkF, maw_find_fixed_income]; rfl
    · rw [hkC, maw_find_cash]; rfl
  have hlall : ∀ kv ∈ [("Equities", e), ("Fixed Income", f), ("Cash", c)],
      ps.length ≤ kv.2.length := by
    intro kv hkv
    simp only [List.mem_cons, List.not_mem_nil, or_false] at hkv
    rcases hkv with rfl | rfl | rfl <;> assumption
  have hsome := compute_tactical_isSome _ M ps _ hm hwall hlall
  refine ⟨hsome, ?_⟩
  intro i hi
  obtain ⟨T, hT⟩ := Option.isSome_iff_exists.mp hsome
  have hD : tacticalD [("Equities", e), ("Fixed Income", f), ("Cash", c)] M ps
      (moderate_active_weight w) = T := by simp [tacticalD, hT]
  rw [hD]
  obtain ⟨_, hlenT, hpt⟩ := compute_tactical_some_spec _ M ps _ T hT
  obtain ⟨rE, hrE1, hrE2⟩ := hpt 0 ("Equities", e) rfl
  obtain ⟨rF, hrF1, hrF2⟩ := hpt 1 ("Fixed Income", f) rfl
  obtain ⟨rC, hrC1, hrC2⟩ := hpt 2 ("Cash", c) rfl
  have hlen3 : T.length = 3 := by simpa using hlenT
  have hTlist : T = [("Equities", rE), ("Fixed Income", rF), ("Cash", rC)] := by
    have hall : ∀ n, T.get? n
        = [("Equities", rE), ("Fixed Income", rF), ("Cash", rC)].get? n := by
      intro n
      match n with
      | 0 => simpa using hrE2
      | 1 => simpa using hrF2
      | 2 => simpa using hrC2
      | (m + 3) =>
        have h1 : T.get? (m + 3) = none := List.get?_eq_none.mpr (by omega)
        have h2 : [("Equities", rE), ("Fixed Income", rF), ("Cash", rC)].get?
            (m + 3) = none := rfl
        rw [h1, h2]
    exact List.ext hall
  subst hTlist
  obtain ⟨p, hp⟩ := get?_exists_of_lt hi
  obtain ⟨_, hptE⟩ := tacticalRowGo_some_spec e M _ _ ps 0 rE hrE1
  obtain ⟨_, hptF⟩ := tacticalRowGo_some_spec f M _ _ ps 0 rF hrF1
  obtain ⟨_, hptC⟩ := tacticalRowGo_some_spec c M _ _ ps 0 rC hrC1
  obtain ⟨s1, m1, w1, a1, a2, a3, a4⟩ := hptE i p hp
  obtain ⟨s2, m2, w2, b1, b2, b3, b4⟩ := hptF i p hp
  obtain ⟨s3, m3, w3, c1, c2, c3, c4⟩ := hptC i p hp
  rw [hkE, maw_find_equities] at a3
  rw [hkF, maw_find_fixed_income] at b3
  rw [hkC, maw_find_cash] at c3
  have hw1 : w1 = w := (Option.some.inj a3).symm
  have hw2 : w2 = -w := (Option.some.inj b3).symm
  have hw3 : w3 = 0 := (Option.some.inj c3).symm
  have hm2 : m2 = m1 := Option.some.inj (b2.symm.trans a2)
  have hm3 : m3 = m1 := Option.some.inj (c2.symm.trans a2)
  have he : e.getD i 0 = s1 := getD_of_get? 0 (by simpa using a1)
  have hf : f.getD i 0 = s2 := getD_of_get? 0 (by simpa using b1)
  have hc : c.getD i 0 = s3 := getD_of_get? 0 (by simpa using c1)
  have hgE : rE.getD i 0 = s1 + m1 * w1 := getD_of_get? 0 a4
  have hgF : rF.getD i 0 = s2 + m2 * w2 := getD_of_get? 0 b4
  have hgC : rC.getD i 0 = s3 + m3 * w3 := getD_of_get? 0 c4
  have h100 : s1 + s2 + s3 = 100 := by
    have := hsum i hi
    rw [he, hf, hc] at this
    exact this
  simp only [columnSum, List.map_cons, List.map_nil, List.sum_cons,
    List.sum_nil, hgE, hgF, hgC, hw1, hw2, hw3, hm2, hm3]
  linear_combination h100

/-- C3 witness: the documented three-profile configuration sums to 100 in the
`Moderate` column after a +2 equities tilt. -/
theorem claim_C3_witness :
    columnSum (tacticalD
      [("Equities", [(70 : ℚ), 60, 50]), ("Fixed Income", [25, 35, 45]),
        ("Cash", [5, 5, 5])]
      [("Aggressive", (3 : ℚ)/2), ("Moderate", 1), ("Conservative", 1/2)]
      ["Aggressive", "Moderate", "Conservative"]
      (moderate_active_weight 2)) 1 = 100 :=
  (claim_C3_row_sum_preservation [(70 : ℚ), 60, 50] [25, 35, 45] [5, 5, 5]
    [("Aggressive", (3 : ℚ)/2), ("Moderate", 1), ("Conservative", 1/2)]
    ["Aggressive", "Moderate", "Conservative"] 2
    (by decide) (by decide) (by decide) (by decide)
    (by
      intro i hi
      have hi3 : i < 3 := by simpa using hi
      interval_cases i <;>
        norm_num [List.getD_cons_zero, List.getD_cons_succ])).2 1
    (by decide)

/-- C8 (amended): `compute_tactical_allocations` performs no validation and
completes whenever every profile has a multiplier, every asset's derived key
has an active weight, and every strategic row reaches every profile index —
in particular for any reordering of `profiles`, which silently misaligns the
output instead of raising. -/
theorem claim_C8_no_internal_error (S : Dict (List ℚ)) (M : Dict ℚ)
    (ps : List String) (AW : Dict ℚ)
    (hm : ∀ p ∈ ps, (Dict.find? M p).isSome = true)
    (hw : ∀ kv ∈ S, (Dict.find? AW (pyKey kv.1)).isSome = true)
    (hl : ∀ kv ∈ S, ps.length ≤ kv.2.length) :
    (compute_tactical_allocations S M ps AW).isSome = true :=
  compute_tactical_isSome S M ps AW hm hw hl

/-- C8 counterexample: a profile without a multiplier makes the computation
raise (`none`), so it does not complete for every input. -/
theorem claim_C8_counterexample :
    compute_tactical_allocations [("A", [(1 : ℚ), 2])] [("p", (1 : ℚ))]
      ["p", "q"] [("a", (0 : ℚ))] = none := by
  have hk : pyKey "A" = "a" := by decide
  simp [compute_tactical_allocations, mapOption, tacticalRowGo, Dict.find?,
    hk, List.find?]

/-- C8 witness: a run with the profile list reordered against the
multiplier dict still completes. -/
theorem claim_C8_witness :
    (compute_tactical_allocations [("Equities", [(70 : ℚ), 60])]
      [("Aggressive", (3 : ℚ)/2), ("Moderate", 1)] ["Moderate", "Aggressive"]
      [("equities", (2 : ℚ))]).isSome = true :=
  claim_C8_no_internal_error [("Equities", [(70 : ℚ), 60])]
    [("Aggressive", (3 : ℚ)/2), ("Moderate", 1)] ["Moderate", "Aggressive"]
    [("equities", (2 : ℚ))] (by decide) (by decide) (by decide)

end TAA

namespace TAA

/-- Summing a pointwise sum of two maps splits into two sums. -/
theorem sum_map_add {α : Type} (l : List α) (f g : α → ℚ) :
    (l.map (fun x => f x + g x)).sum = (l.map f).sum + (l.map g).sum := by
  induction l with
  | nil => simp
  | cons a l ih => simp only [List.map_cons, List.sum_cons, ih]; ring

/-- Looking every key of a dict with distinct keys back up and summing
returns the sum of the values. -/
theorem sum_findD_keys (aw : Dict ℚ) (hnd : (aw.map Prod.fst).Nodup) :
    ((aw.map Prod.fst).map (fun k => Dict.findD aw k 0)).sum
      = (aw.map Prod.snd).sum := by
  induction aw with
  | nil => rfl
  | cons kv rest ih =>
    simp only [List.map_cons, List.nodup_cons] at hnd
    obtain ⟨hk, hnd'⟩ := hnd
    have hhead : Dict.findD (kv :: rest) kv.1 0 = kv.2 := by
      simp [Dict.findD, Dict.find?, List.find?]
    have htail : ∀ k ∈ rest.map Prod.fst,
        Dict.findD (kv :: rest) k 0 = Dict.findD rest k 0 := by
      intro k hkmem
      have hne : ¬ (kv.1 = k) := fun h => hk (h ▸ hkmem)
      simp [Dict.findD, Dict.find?, List.find?, hne]
    simp only [List.map_cons, List.sum_cons, hhead,
      List.map_congr_left htail, ih hnd']

/-- C5: whenever `compute_level_2_tactical_allocations` completes on a
baseline and an active-weight dict with exactly the baseline's (distinct)
keys, every output entry is `baseline[k] + activeWeights[k]`, and a zero-sum
active-weight dict preserves the baseline's total exactly. -/
theorem claim_C5_level2_formula_and_sum (base aw : Dict ℚ)
    (hsome : (compute_level_2_tactical_allocations base aw).isSome = true)
    (hnd : (aw.map Prod.fst).Nodup)
    (hperm : (aw.map Prod.fst).Perm (base.map Prod.fst)) :
    (∀ j kv, base.get? j = some kv → ∃ w, Dict.find? aw kv.1 = some w ∧
      (level2D base aw).get? j = some (kv.1, kv.2 + w)) ∧
    ((aw.map Prod.snd).sum = 0 →
      ((level2D base aw).map Prod.snd).sum = (base.map Prod.snd).sum) := by
  obtain ⟨t, ht⟩ := Option.isSome_iff_exists.mp hsome
  have hD : level2D base aw = t := by simp [level2D, ht]
  have h' : mapOption
      (fun kv : String × ℚ =>
        (Dict.find? aw kv.1).map (fun w => (kv.1, kv.2 + w)))
      base = some t := ht
  obtain ⟨hlen, hpt⟩ := mapOption_some_spec _ base t h'
  rw [hD]
  constructor
  · intro j kv hj
    obtain ⟨b, hb1, hb2⟩ := hpt j kv hj
    rcases Option.map_eq_some'.mp hb1 with ⟨w', hw', rfl⟩
    exact ⟨w', hw', hb2⟩
  · intro hzero
    have hvals : t.map Prod.snd
        = base.map (fun kv => kv.2 + Dict.findD aw kv.1 0) := by
      apply mapOption_keys _ Prod.snd
        (fun kv => kv.2 + Dict.findD aw kv.1 0) ?_ base t h'
      intro a b hab
      rcases Option.map_eq_some'.mp hab with ⟨w', hw', rfl⟩
      simp [Dict.findD, hw']
    rw [hvals, sum_map_add base Prod.snd (fun kv => Dict.findD aw kv.1 0)]
    have hcomp : base.map (fun kv => Dict.findD aw kv.1 0)
        = (base.map Prod.fst).map (fun k => Dict.findD aw k 0) := by
      rw [List.map_map]
      rfl
    have hpermsum :
        ((base.map Prod.fst).map (fun k => Dict.findD aw k 0)).sum
          = ((aw.map Prod.fst).map (fun k => Dict.findD aw k 0)).sum :=
      (List.Perm.sum_eq (List.Perm.map _ hperm)).symm
    rw [hcomp, hpermsum, sum_findD_keys aw hnd, hzero, add_zero]

/-- C5 witness: a two-entry baseline with a matching zero-sum tilt keeps its
total. -/
theorem claim_C5_witness :
    ((level2D [("x", (60 : ℚ)), ("y", 40)] [("x", (5 : ℚ)), ("y", -5)]).map
      Prod.snd).sum = ([("x", (60 : ℚ)), ("y", 40)].map Prod.snd).sum :=
  (claim_C5_level2_formula_and_sum [("x", (60 : ℚ)), ("y", 40)]
    [("x", (5 : ℚ)), ("y", -5)] (by decide) (by decide) (by decide)).2
    (by norm_num [List.map_cons, List.map_nil, List.sum_cons, List.sum_nil])

/-- C6: the zero-sum validator passes exactly when the weight values sum to
zero (no tolerance), failing on `{a: 3, b: -2}` and passing on
`{a: 5, b: -5}`. -/
theorem claim_C6_validator_pass_iff_zero_sum :
    (∀ ws : Dict ℚ,
      validate_active_weights ws = true ↔ (ws.map Prod.snd).sum = 0) ∧
    validate_active_weights [("a", (3 : ℚ)), ("b", -2)] = false ∧
    validate_active_weights [("a", (5 : ℚ)), ("b", -5)] = true := by
  refine ⟨fun ws => by simp [validate_active_weights], ?_, ?_⟩
  · apply decide_eq_false
    norm_num [List.map_cons, List.map_nil, List.sum_cons, List.sum_nil]
  · apply decide_eq_true
    norm_num [List.map_cons, List.map_nil, List.sum_cons, List.sum_nil]

/-- C7 counterexample: an active-weight dict with a surplus key (`"b"` is not
a baseline key) is not rejected — the computation completes, silently
ignoring the extra entry, so a key-set mismatch is not fatal in both
directions. -/
theorem claim_C7_counterexample :
    compute_level_2_tactical_allocations [("a", (1 : ℚ))]
      [("a", (2 : ℚ)), ("b", 3)] = some [("a", (3 : ℚ))] ∧
    ¬ ("b" ∈ ([("a", (1 : ℚ))].map Prod.fst)) := by
  constructor
  · have harith : (1 : ℚ) + 2 = 3 := by norm_num
    simp [compute_level_2_tactical_allocations, mapOption, Dict.find?,
      List.find?, harith]
  · simp

/-- C7 (amended): `compute_level_2_tactical_allocations` fails (raises
`KeyError`) exactly when the active-weight dict lacks some key of the
baseline; only the missing direction of a key-set mismatch is fatal. -/
theorem claim_C7_fails_iff_missing_key (base aw : Dict ℚ) :
    compute_level_2_tactical_allocations base aw = none
      ↔ ∃ kv ∈ base, Dict.find? aw kv.1 = none := by
  rw [compute_level_2_tactical_allocations, mapOption_eq_none_iff]
  constructor
  · rintro ⟨kv, hkv, hfkv⟩
    exact ⟨kv, hkv, by simpa using hfkv⟩
  · rintro ⟨kv, hkv, hfkv⟩
    exact ⟨kv, hkv, by simp [hfkv]⟩

/-- C9: the weights returned by `input_active_weights` are the entered slider
values regardless of the validation outcome, and the level-2 computation uses
them identically; concretely, an entry set failing validation still produces
the computed tactical table. -/
theorem claim_C9_validation_nonfatal :
    (∀ (dw : Dict ℚ) (user : String → ℚ) (base : Dict ℚ),
      (input_active_weights dw user).1 = enteredWeights dw user ∧
      compute_level_2_tactical_allocations base (input_active_weights dw user).1
        = compute_level_2_tactical_allocations base (enteredWeights dw user)) ∧
    (input_active_weights [("a", (0 : ℚ)), ("b", 0)]
      (fun k => if k = "a" then 3 else -2)).2 = false ∧
    compute_level_2_tactical_allocations [("a", (10 : ℚ)), ("b", 20)]
      (input_active_weights [("a", (0 : ℚ)), ("b", 0)]
        (fun k => if k = "a" then 3 else -2)).1
      = some [("a", (13 : ℚ)), ("b", 18)] := by
  refine ⟨fun dw user base => ⟨rfl, rfl⟩, ?_, ?_⟩
  · apply decide_eq_false
    have hne : ¬ (("b" : String) = "a") := by decide
    norm_num [enteredWeights, hne, List.map_cons, List.map_nil, List.sum_cons,
      List.sum_nil]
  · have h1 : (10 : ℚ) + 3 = 13 := by norm_num
    have h2 : (20 : ℚ) + -2 = 18 := by norm_num
    simp [compute_level_2_tactical_allocations, input_active_weights,
      enteredWeights, mapOption, Dict.find?, List.find?, h1, h2]

end TAA

namespace TAA

/-- `find?` in a prefix-free list continues into an appended tail. -/
theorem find?_append_of_none {α : Type} (p : α → Bool) :
    ∀ (l1 l2 : List α), List.find? p l1 = none →
      List.find? p (l1 ++ l2) = List.find? p l2 := by
  intro l1
  induction l1 with
  | nil => intro l2 _; rfl
  | cons a l ih =>
    intro l2 hn
    have h1 : ¬ p a = true := by
      intro hpa
      rw [List.find?_cons_of_pos _ hpa] at hn
      exact Option.noConfusion hn
    rw [List.find?_cons_of_neg _ h1] at hn
    rw [List.cons_append, List.find?_cons_of_neg _ h1, ih l2 hn]

/-- `setRowTyp` does not change `find?` for a different key. -/
theorem find?_setRowTyp_ne (t : TotalTable) (k kp : String) (typ : AllocType)
    (f : String → Option ℚ) (hne : kp ≠ k) :
    List.find? (fun kv => kv.1 = kp) (setRowTyp t k typ f)
      = List.find? (fun kv => kv.1 = kp) t := by
  induction t with
  | nil => rfl
  | cons kv0 rest ih =>
    simp only [setRowTyp, List.map_cons] at ih ⊢
    by_cases h : kv0.1 = k
    · have h2 : ¬ (kv0.1 = kp) := fun hh => hne (hh.symm.trans h)
      rw [if_pos h, List.find?_cons_of_neg _ (by simpa using h2),
        List.find?_cons_of_neg _ (by simpa using h2), ih]
    · rw [if_neg h]
      by_cases h2 : kv0.1 = kp
      · rw [List.find?_cons_of_pos _ (by simpa using h2),
          List.find?_cons_of_pos _ (by simpa using h2)]
      · rw [List.find?_cons_of_neg _ (by simpa using h2),
          List.find?_cons_of_neg _ (by simpa using h2), ih]

/-- Reading a different row is unaffected by `setRowTyp`. -/
theorem getRowD_setRowTyp_ne (t : TotalTable) (k kp : String) (typ : AllocType)
    (f : String → Option ℚ) (hne : kp ≠ k) :
    getRowD (setRowTyp t k typ f) kp = getRowD t kp := by
  simp only [getRowD, find?_setRowTyp_ne t k kp typ f hne]

/-- Reading the row `setRowTyp` wrote: the `typ` cells are the new slice,
other cells are unchanged (when the label is present). -/
theorem getRowD_setRowTyp_self :
    ∀ (t : TotalTable) (k : String) (typ : AllocType) (f : String → Option ℚ),
      k ∈ t.map Prod.fst →
      ∀ (p : String) (ty : AllocType),
        getRowD (setRowTyp t k typ f) k p ty
          = if ty = typ then f p else getRowD t k p ty := by
  intro t
  induction t with
  | nil => intro k typ f hmem; simp at hmem
  | cons kv0 rest ih =>
    intro k typ f hmem p ty
    by_cases h : kv0.1 = k
    · simp only [setRowTyp, List.map_cons, if_pos h, getRowD]
      rw [List.find?_cons_of_pos _ (by simpa using h),
        List.find?_cons_of_pos _ (by simpa using h)]
      simp
    · have hmem2 : k ∈ rest.map Prod.fst := by
        simp only [List.map_cons, List.mem_cons] at hmem
        rcases hmem with h1 | h1
        · exact absurd h1.symm h
        · exact h1
      have := ih k typ f hmem2 p ty
      simp only [setRowTyp, List.map_cons, if_neg h, getRowD] at this ⊢
      rw [List.find?_cons_of_neg _ (by simpa using h),
        List.find?_cons_of_neg _ (by simpa using h)]
      exact this

/-- `setRowTyp` preserves the row labels. -/
theorem keys_setRowTyp (t : TotalTable) (k : String) (typ : AllocType)
    (f : String → Option ℚ) :
    (setRowTyp t k typ f).map Prod.fst = t.map Prod.fst := by
  rw [setRowTyp, List.map_map]
  apply List.map_congr_left
  intro kv _
  by_cases h : kv.1 = k <;> simp [h]

/-- `setRowFull` does not change `find?` for a different key. -/
theorem find?_setRowFull_ne (t : TotalTable) (k kp : String) (r : TotalRow)
    (hne : kp ≠ k) :
    List.find? (fun kv => kv.1 = kp) (setRowFull t k r)
      = List.find? (fun kv => kv.1 = kp) t := by
  rw [setRowFull]
  by_cases hany : t.any (fun kv => kv.1 = k)
  · rw [if_pos hany]
    clear hany
    induction t with
    | nil => rfl
    | cons kv0 rest ih =>
      simp only [List.map_cons]
      by_cases h : kv0.1 = k
      · have h2 : ¬ (kv0.1 = kp) := fun hh => hne (hh.symm.trans h)
        rw [if_pos h, List.find?_cons_of_neg _ (by simpa using h2),
          List.find?_cons_of_neg _ (by simpa using h2), ih]
      · rw [if_neg h]
        by_cases h2 : kv0.1 = kp
        · rw [List.find?_cons_of_pos _ (by simpa using h2),
            List.find?_cons_of_pos _ (by simpa using h2)]
        · rw [List.find?_cons_of_neg _ (by simpa using h2),
            List.find?_cons_of_neg _ (by simpa using h2), ih]
  · rw [if_neg hany]
    clear hany
    induction t with
    | nil =>
      simp only [List.nil_append]
      rw [List.find?_cons_of_neg _ (by simpa using fun hh => hne hh.symm)]
    | cons kv0 rest ih =>
      rw [List.cons_append]
      by_cases h2 : kv0.1 = kp
      · rw [List.find?_cons_of_pos _ (by simpa using h2),
          List.find?_cons_of_pos _ (by simpa using h2)]
      · rw [List.find?_cons_of_neg _ (by simpa using h2),
          List.find?_cons_of_neg _ (by simpa using h2), ih]

/-- Reading a different row is unaffected by `setRowFull`. -/
theorem getRowD_setRowFull_ne (t : TotalTable) (k kp : String) (r : TotalRow)
    (hne : kp ≠ k) :
    getRowD (setRowFull t k r) kp = getRowD t kp := by
  simp only [getRowD, find?_setRowFull_ne t k kp r hne]

/-- In the overwrite branch of `setRowFull`, `find?` at the written key
returns the new row. -/
theorem find?_map_setrow_self :
    ∀ (t : TotalTable) (k : String) (r : TotalRow),
      t.any (fun kv => kv.1 = k) = true →
      List.find? (fun kv => kv.1 = k)
        (t.map (fun kv => if kv.1 = k then (kv.1, r) else kv)) = some (k, r) := by
  intro t
  induction t with
  | nil => intro k r h; simp at h
  | cons kv0 rest ih =>
    intro k r hany
    by_cases h : kv0.1 = k
    · simp only [List.map_cons, if_pos h]
      rw [List.find?_cons_of_pos _ (by simpa using h), h]
    · have hany2 : rest.any (fun kv => kv.1 = k) = true := by
        rcases List.any_eq_true.mp hany with ⟨x, hx, hpx⟩
        rcases List.mem_cons.mp hx with rfl | hx2
        · exact absurd (of_decide_eq_true hpx) h
        · exact List.any_eq_true.mpr ⟨x, hx2, hpx⟩
      simp only [List.map_cons, if_neg h]
      rw [List.find?_cons_of_neg _ (by simpa using h)]
      exact ih k r hany2

/-- Reading the row `setRowFull` wrote returns exactly the new row. -/
theorem getRowD_setRowFull_self (t : TotalTable) (k : String) (r : TotalRow) :
    getRowD (setRowFull t k r) k = r := by
  rw [setRowFull]
  by_cases hany : t.any (fun kv => kv.1 = k)
  · rw [if_pos hany]
    simp [getRowD, find?_map_setrow_self t k r hany]
  · rw [if_neg hany]
    have hnone : List.find? (fun kv => kv.1 = k) t = none := by
      rw [List.find?_eq_none]
      intro x hx hxk
      exact hany (List.any_eq_true.mpr ⟨x, hx, hxk⟩)
    rw [getRowD, find?_append_of_none _ t [(k, r)] hnone,
      List.find?_cons_of_pos _ (by simp)]
    rfl

/-- `setRowFull` keeps every existing row label. -/
theorem mem_keys_setRowFull (t : TotalTable) (k kp : String) (r : TotalRow)
    (hmem : kp ∈ t.map Prod.fst) :
    kp ∈ (setRowFull t k r).map Prod.fst := by
  rw [setRowFull]
  by_cases hany : t.any (fun kv => kv.1 = k)
  · rw [if_pos hany]
    have hkeys : (t.map (fun kv => if kv.1 = k then (kv.1, r) else kv)).map
        Prod.fst = t.map Prod.fst := by
      rw [List.map_map]
      apply List.map_congr_left
      intro kv _
      by_cases h : kv.1 = k <;> simp [h]
    rw [hkeys]
    exact hmem
  · rw [if_neg hany, List.map_append]
    exact List.mem_append.mpr (Or.inl hmem)

end TAA

namespace TAA

/-- Rows whose label the level-1 loop never visits are untouched. -/
theorem assignLevel1_frame (L : Dict (String → AllocType → ℚ)) :
    ∀ (ks : List String) (t tp : TotalTable) (k : String),
      assignLevel1 L ks t = some tp → k ∉ ks →
      getRowD tp k = getRowD t k := by
  intro ks
  induction ks with
  | nil =>
    intro t tp k h _
    simp only [assignLevel1, Option.some.injEq] at h
    subst h
    rfl
  | cons k0 ks ih =>
    intro t tp k h hk
    simp only [assignLevel1] at h
    cases hf : Dict.find? L k0 with
    | none => simp [hf] at h
    | some r =>
      simp only [hf] at h
      have hk0 : k ≠ k0 := fun hh => hk (hh ▸ List.mem_cons_self k0 ks)
      have hks : k ∉ ks := fun hh => hk (List.mem_cons_of_mem _ hh)
      rw [ih _ tp k h hks, getRowD_setRowFull_ne t k0 k _ hk0]

/-- Every visited label of the level-1 loop ends up holding its
`level_1_df` row. -/
theorem assignLevel1_mem (L : Dict (String → AllocType → ℚ)) :
    ∀ (ks : List String) (t tp : TotalTable) (k : String),
      assignLevel1 L ks t = some tp → k ∈ ks →
      ∃ r, Dict.find? L k = some r ∧
        getRowD tp k = fun p ty => some (r p ty) := by
  intro ks
  induction ks with
  | nil => intro t tp k _ hk; simp at hk
  | cons k0 ks ih =>
    intro t tp k h hk
    simp only [assignLevel1] at h
    cases hf : Dict.find? L k0 with
    | none => simp [hf] at h
    | some r0 =>
      simp only [hf] at h
      by_cases hks : k ∈ ks
      · exact ih _ tp k h hks
      · have hk0 : k = k0 := by
          rcases List.mem_cons.mp hk with h1 | h1
          · exact h1
          · exact absurd h1 hks
        subst hk0
        refine ⟨r0, hf, ?_⟩
        rw [assignLevel1_frame L ks _ tp k h hks, getRowD_setRowFull_self]

/-- The level-1 loop succeeds when every visited class is in `level_1_df`. -/
theorem assignLevel1_isSome (L : Dict (String → AllocType → ℚ)) :
    ∀ (ks : List String) (t : TotalTable),
      (∀ k ∈ ks, (Dict.find? L k).isSome = true) →
      (assignLevel1 L ks t).isSome = true := by
  intro ks
  induction ks with
  | nil => intro t _; simp [assignLevel1]
  | cons k0 ks ih =>
    intro t hall
    obtain ⟨r, hr⟩ := Option.isSome_iff_exists.mp (hall k0 (by simp))
    simp only [assignLevel1, hr]
    exact ih _ (fun k hk => hall k (by simp [hk]))

/-- The level-1 loop keeps every existing row label. -/
theorem assignLevel1_mem_keys (L : Dict (String → AllocType → ℚ)) :
    ∀ (ks : List String) (t tp : TotalTable) (k : String),
      assignLevel1 L ks t = some tp → k ∈ t.map Prod.fst →
      k ∈ tp.map Prod.fst := by
  intro ks
  induction ks with
  | nil =>
    intro t tp k h hk
    simp only [assignLevel1, Option.some.injEq] at h
    subst h
    exact hk
  | cons k0 ks ih =>
    intro t tp k h hk
    simp only [assignLevel1] at h
    cases hf : Dict.find? L k0 with
    | none => simp [hf] at h
    | some r0 =>
      simp only [hf] at h
      exact ih _ tp k h (mem_keys_setRowFull t k0 k _ hk)

/-- The level-2 loop preserves the row labels. -/
theorem keys_applyLevel2 (parent : String) :
    ∀ (lvl2 : Dict (AllocType → ℚ)) (t : TotalTable),
      (applyLevel2 parent lvl2 t).map Prod.fst = t.map Prod.fst := by
  intro lvl2
  induction lvl2 with
  | nil => intro t; rfl
  | cons kv rest ih =>
    intro t
    simp only [applyLevel2]
    rw [ih, keys_setRowTyp, keys_setRowTyp]

/-- Rows whose label is not a sub-class of the level-2 loop are untouched. -/
theorem applyLevel2_frame (parent : String) :
    ∀ (lvl2 : Dict (AllocType → ℚ)) (t : TotalTable) (k : String),
      k ∉ lvl2.map Prod.fst →
      getRowD (applyLevel2 parent lvl2 t) k = getRowD t k := by
  intro lvl2
  induction lvl2 with
  | nil => intro t k _; rfl
  | cons kv rest ih =>
    intro t k hk
    simp only [List.map_cons, List.mem_cons, not_or] at hk
    obtain ⟨hk0, hkr⟩ := hk
    simp only [applyLevel2]
    rw [ih _ k hkr, getRowD_setRowTyp_ne _ _ _ _ _ hk0,
      getRowD_setRowTyp_ne _ _ _ _ _ hk0]

/-- Each sub-class row written by the level-2 loop is the parent row at loop
entry scaled by the sub-class's own-percentage over 100, for both column
types. -/
theorem applyLevel2_value (parent : String) :
    ∀ (lvl2 : Dict (AllocType → ℚ)) (t : TotalTable),
      parent ∉ lvl2.map Prod.fst →
      (lvl2.map Prod.fst).Nodup →
      (∀ s ∈ lvl2.map Prod.fst, s ∈ t.map Prod.fst) →
      ∀ kv ∈ lvl2, ∀ (p : String) (ty : AllocType),
        getRowD (applyLevel2 parent lvl2 t) kv.1 p ty
          = (getRowD t parent p ty).map (fun x => kv.2 ty * x / 100) := by
  intro lvl2
  induction lvl2 with
  | nil => intro t _ _ _ kv hkv; simp at hkv
  | cons kv0 rest ih =>
    intro t hpar hnd hmem kv hkv p ty
    simp only [List.map_cons, List.mem_cons, not_or] at hpar
    obtain ⟨hpar1, hpar2⟩ := hpar
    have hnds : kv0.1 ∉ rest.map Prod.fst ∧ (rest.map Prod.fst).Nodup := by
      simpa [List.nodup_cons] using hnd
    obtain ⟨hnd1, hnd2⟩ := hnds
    simp only [applyLevel2]
    rcases List.mem_cons.mp hkv with heq | hkvr
    · subst heq
      rw [applyLevel2_frame parent rest _ kv.1 hnd1]
      have hmem1 : kv.1 ∈ (setRowTyp t kv.1 AllocType.strategic
          (fun q => (getRowD t parent q AllocType.strategic).map
            (fun x => kv.2 AllocType.strategic * x / 100))).map Prod.fst := by
        rw [keys_setRowTyp]
        exact hmem kv.1 (by simp)
      rw [getRowD_setRowTyp_self _ kv.1 AllocType.tactical _ hmem1 p ty]
      cases ty with
      | tactical =>
        rw [if_pos rfl,
          getRowD_setRowTyp_ne t kv.1 parent _ _ hpar1]
      | strategic =>
        rw [if_neg (by decide),
          getRowD_setRowTyp_self t kv.1 AllocType.strategic _
            (hmem kv.1 (by simp)) p AllocType.strategic,
          if_pos rfl]
    · have hmem2 : ∀ s ∈ rest.map Prod.fst,
          s ∈ (setRowTyp (setRowTyp t kv0.1 AllocType.strategic
              (fun q => (getRowD t parent q AllocType.strategic).map
                (fun x => kv0.2 AllocType.strategic * x / 100)))
            kv0.1 AllocType.tactical
            (fun q => (getRowD (setRowTyp t kv0.1 AllocType.strategic
                (fun q2 => (getRowD t parent q2 AllocType.strategic).map
                  (fun x => kv0.2 AllocType.strategic * x / 100)))
              parent q AllocType.tactical).map
                (fun x => kv0.2 AllocType.tactical * x / 100))).map Prod.fst := by
        intro s hs
        rw [keys_setRowTyp, keys_setRowTyp]
        exact hmem s (by simp [hs])
      rw [ih _ hpar2 hnd2 hmem2 kv hkvr p ty,
        getRowD_setRowTyp_ne _ _ _ _ _ hpar1,
        getRowD_setRowTyp_ne _ _ _ _ _ hpar1]

end TAA

namespace TAA

/-- The row labels of the empty frame are the interleaved index. -/
theorem keys_initTotal (E F : Dict (AllocType → ℚ)) :
    (initTotal E F).map Prod.fst
      = ["Equities"] ++ E.map Prod.fst ++ ["Fixed Income"]
        ++ F.map Prod.fst ++ ["Cash"] := by
  rw [initTotal, List.map_map]
  have h : (Prod.fst ∘ fun k => ((k, fun _ _ => none) : String × TotalRow))
      = id := rfl
  rw [h, List.map_id]

/-- Splitting a multiplied-and-rebased sum out of a list sum. -/
theorem sum_map_mul_div {α : Type} (l : List α) (f : α → ℚ) (x : ℚ) :
    (l.map (fun a => f a * x / 100)).sum = (l.map f).sum * x / 100 := by
  induction l with
  | nil => simp
  | cons a l ih => simp only [List.map_cons, List.sum_cons, ih]; ring

/-- Decomposition of a successful `compute_total_allocations` run into the
level-1 copy followed by the two level-2 loops. -/
theorem total_spec (L : Dict (String → AllocType → ℚ))
    (E F : Dict (AllocType → ℚ)) (SK : List String)
    (hfind : ∀ k ∈ SK, (Dict.find? L k).isSome = true) :
    ∃ t1, assignLevel1 L SK (initTotal E F) = some t1 ∧
      compute_total_allocations L E F SK
        = some (applyLevel2 "Fixed Income" F (applyLevel2 "Equities" E t1)) ∧
      totalD L E F SK
        = applyLevel2 "Fixed Income" F (applyLevel2 "Equities" E t1) := by
  obtain ⟨t1, ht1⟩ := Option.isSome_iff_exists.mp
    (assignLevel1_isSome L SK (initTotal E F) hfind)
  exact ⟨t1, ht1, by simp [compute_total_allocations, ht1],
    by simp [totalD, compute_total_allocations, ht1]⟩

/-- Every level-1 row of the total table is the `level_1_df` row, untouched
by the level-2 loops. -/
theorem total_level1_rows (L : Dict (String → AllocType → ℚ))
    (E F : Dict (AllocType → ℚ)) (SK : List String)
    (hfind : ∀ k ∈ SK, (Dict.find? L k).isSome = true)
    (hdE : ∀ k ∈ SK, k ∉ E.map Prod.fst)
    (hdF : ∀ k ∈ SK, k ∉ F.map Prod.fst) :
    ∀ k ∈ SK, ∃ r, Dict.find? L k = some r ∧
      ∀ p ty, getRowD (totalD L E F SK) k p ty = some (r p ty) := by
  obtain ⟨t1, ht1, _, htD⟩ := total_spec L E F SK hfind
  intro k hk
  obtain ⟨r, hr, hrow⟩ := assignLevel1_mem L SK _ t1 k ht1 hk
  refine ⟨r, hr, fun p ty => ?_⟩
  rw [htD, applyLevel2_frame _ F _ k (hdF k hk),
    applyLevel2_frame _ E _ k (hdE k hk), hrow]

/-- Every equities sub-class row of the total table is its own-percentage
times the `Equities` level-1 row over 100. -/
theorem total_equities_subrows (L : Dict (String → AllocType → ℚ))
    (E F : Dict (AllocType → ℚ)) (SK : List String)
    (hfind : ∀ k ∈ SK, (Dict.find? L k).isSome = true)
    (hE : "Equities" ∈ SK)
    (hdE : ∀ k ∈ SK, k ∉ E.map Prod.fst)
    (hndE : (E.map Prod.fst).Nodup)
    (hEF : ∀ k ∈ E.map Prod.fst, k ∉ F.map Prod.fst) :
    ∃ rE, Dict.find? L "Equities" = some rE ∧
      ∀ kv ∈ E, ∀ p ty, getRowD (totalD L E F SK) kv.1 p ty
        = some (kv.2 ty * rE p ty / 100) := by
  obtain ⟨t1, ht1, _, htD⟩ := total_spec L E F SK hfind
  obtain ⟨rE, hrE, hrowE⟩ := assignLevel1_mem L SK _ t1 "Equities" ht1 hE
  refine ⟨rE, hrE, fun kv hkv p ty => ?_⟩
  have hparE : "Equities" ∉ E.map Prod.fst := hdE "Equities" hE
  have hmemE : ∀ s ∈ E.map Prod.fst, s ∈ t1.map Prod.fst := by
    intro s hs
    apply assignLevel1_mem_keys L SK _ t1 s ht1
    rw [keys_initTotal]
    simp [hs]
  have hsubF : kv.1 ∉ F.map Prod.fst :=
    hEF kv.1 (List.mem_map_of_mem Prod.fst hkv)
  rw [htD, applyLevel2_frame _ F _ kv.1 hsubF,
    applyLevel2_value "Equities" E t1 hparE hndE hmemE kv hkv p ty, hrowE]
  simp

/-- Every fixed-income sub-class row of the total table is its
own-percentage times the `Fixed Income` level-1 row over 100. -/
theorem total_fixedincome_subrows (L : Dict (String → AllocType → ℚ))
    (E F : Dict (AllocType → ℚ)) (SK : List String)
    (hfind : ∀ k ∈ SK, (Dict.find? L k).isSome = true)
    (hF : "Fixed Income" ∈ SK)
    (hdE : ∀ k ∈ SK, k ∉ E.map Prod.fst)
    (hdF : ∀ k ∈ SK, k ∉ F.map Prod.fst)
    (hndF : (F.map Prod.fst).Nodup) :
    ∃ rF, Dict.find? L "Fixed Income" = some rF ∧
      ∀ kv ∈ F, ∀ p ty, getRowD (totalD L E F SK) kv.1 p ty
        = some (kv.2 ty * rF p ty / 100) := by
  obtain ⟨t1, ht1, _, htD⟩ := total_spec L E F SK hfind
  obtain ⟨rF, hrF, hrowF⟩ := assignLevel1_mem L SK _ t1 "Fixed Income" ht1 hF
  refine ⟨rF, hrF, fun kv hkv p ty => ?_⟩
  have hparF : "Fixed Income" ∉ F.map Prod.fst := hdF "Fixed Income" hF
  have hFnotE : "Fixed Income" ∉ E.map Prod.fst := hdE "Fixed Income" hF
  have hmemF : ∀ s ∈ F.map Prod.fst,
      s ∈ (applyLevel2 "Equities" E t1).map Prod.fst := by
    intro s hs
    rw [keys_applyLevel2]
    apply assignLevel1_mem_keys L SK _ t1 s ht1
    rw [keys_initTotal]
    simp [hs]
  rw [htD,
    applyLevel2_value "Fixed Income" F (applyLevel2 "Equities" E t1)
      hparF hndF hmemF kv hkv p ty,
    applyLevel2_frame "Equities" E t1 "Fixed Income" hFnotE, hrowF]
  simp

end TAA

namespace TAA

/-- C2: in the reconciled total table, every equities (resp. fixed-income)
sub-class row equals its own-percentage times the parent level-1 value over
100 for each (Profile, Type) column, and every level-1 class other than the
two parents keeps its level-1 value directly.  The level-1 classes and the
sub-class labels are assumed distinct, as in the app's tables. -/
theorem claim_C2_total_reconciliation (L : Dict (String → AllocType → ℚ))
    (E F : Dict (AllocType → ℚ)) (SK : List String)
    (hfind : ∀ k ∈ SK, (Dict.find? L k).isSome = true)
    (hE : "Equities" ∈ SK) (hF : "Fixed Income" ∈ SK)
    (hdE : ∀ k ∈ SK, k ∉ E.map Prod.fst)
    (hdF : ∀ k ∈ SK, k ∉ F.map Prod.fst)
    (hndE : (E.map Prod.fst).Nodup) (hndF : (F.map Prod.fst).Nodup)
    (hEF : ∀ k ∈ E.map Prod.fst, k ∉ F.map Prod.fst) :
    (compute_total_allocations L E F SK).isSome = true ∧
    (∃ rE, Dict.find? L "Equities" = some rE ∧
      ∀ j kv, E.get? j = some kv → ∀ p ty,
        getRowD (totalD L E F SK) kv.1 p ty
          = some (kv.2 ty * rE p ty / 100)) ∧
    (∃ rF, Dict.find? L "Fixed Income" = some rF ∧
      ∀ j kv, F.get? j = some kv → ∀ p ty,
        getRowD (totalD L E F SK) kv.1 p ty
          = some (kv.2 ty * rF p ty / 100)) ∧
    (∀ k ∈ SK, k ≠ "Equities" → k ≠ "Fixed Income" → ∃ r,
      Dict.find? L k = some r ∧
      ∀ p ty, getRowD (totalD L E F SK) k p ty = some (r p ty)) := by
  have hisSome : (compute_total_allocations L E F SK).isSome = true := by
    obtain ⟨t1, _, hct, _⟩ := total_spec L E F SK hfind
    rw [hct]
    rfl
  obtain ⟨rE, hrE, hallE⟩ := total_equities_subrows L E F SK hfind hE hdE hndE hEF
  obtain ⟨rF, hrF, hallF⟩ := total_fixedincome_subrows L E F SK hfind hF hdE hdF hndF
  refine ⟨hisSome, ⟨rE, hrE, ?_⟩, ⟨rF, hrF, ?_⟩, ?_⟩
  · intro j kv hj p ty
    exact hallE kv (List.get?_mem hj) p ty
  · intro j kv hj p ty
    exact hallF kv (List.get?_mem hj) p ty
  · intro k hk _ _
    exact total_level1_rows L E F SK hfind hdE hdF k hk

/-- C2 witness: sub-class "Large Cap Growth" (own 30) under Equities
(tactical 62 for Moderate) gets 30 × 62 / 100 = 18.6. -/
theorem claim_C2_witness :
    getRowD (totalD sampleLevel1 sampleEquities sampleFixedIncome
        sampleStrategicKeys) "Large Cap Growth" "Moderate" AllocType.tactical
      = some ((30 : ℚ) * 62 / 100) := by
  obtain ⟨rE, hrE, hall⟩ := (claim_C2_total_reconciliation sampleLevel1
    sampleEquities sampleFixedIncome sampleStrategicKeys
    (by decide) (by decide) (by decide) (by decide) (by decide) (by decide)
    (by decide) (by decide)).2.1
  have hrEv : rE = fun _ ty => if ty = AllocType.tactical then 62 else 60 :=
    Option.some.inj (hrE.symm.trans (rfl :
      Dict.find? sampleLevel1 "Equities"
        = some (fun _ ty =>
            if ty = AllocType.tactical then (62 : ℚ) else 60)))
  have hcell := hall 0 ("Large Cap Growth", fun _ => (30 : ℚ)) rfl "Moderate"
    AllocType.tactical
  rw [hrEv] at hcell
  simpa using hcell

/-- C10: every level-1 row of the reconciled total table — the parents
`Equities` and `Fixed Income` included — equals the corresponding
`level_1_df` row exactly; writing the sub-class rows modifies no level-1
row (sub-class labels are distinct from level-1 labels, as in the app). -/
theorem claim_C10_level1_rows_preserved (L : Dict (String → AllocType → ℚ))
    (E F : Dict (AllocType → ℚ)) (SK : List String)
    (hfind : ∀ k ∈ SK, (Dict.find? L k).isSome = true)
    (hdE : ∀ k ∈ SK, k ∉ E.map Prod.fst)
    (hdF : ∀ k ∈ SK, k ∉ F.map Prod.fst) :
    (compute_total_allocations L E F SK).isSome = true ∧
    ∀ k ∈ SK, ∃ r, Dict.find? L k = some r ∧
      ∀ p ty, getRowD (totalD L E F SK) k p ty = some (r p ty) := by
  constructor
  · obtain ⟨t1, _, hct, _⟩ := total_spec L E F SK hfind
    rw [hct]
    rfl
  · exact total_level1_rows L E F SK hfind hdE hdF

/-- C10 witness: the `Equities` parent row survives reconciliation
unchanged. -/
theorem claim_C10_witness :
    getRowD (totalD sampleLevel1 sampleEquities sampleFixedIncome
        sampleStrategicKeys) "Equities" "Moderate" AllocType.tactical
      = some 62 := by
  obtain ⟨r, hr, hall⟩ := (claim_C10_level1_rows_preserved sampleLevel1
    sampleEquities sampleFixedIncome sampleStrategicKeys
    (by decide) (by decide) (by decide)).2 "Equities" (by decide)
  have hrv : r = fun _ ty => if ty = AllocType.tactical then 62 else 60 :=
    Option.some.inj (hr.symm.trans (rfl :
      Dict.find? sampleLevel1 "Equities"
        = some (fun _ ty =>
            if ty = AllocType.tactical then (62 : ℚ) else 60)))
  rw [hall "Moderate" AllocType.tactical, hrv]
  simp

/-- C4: when a parent's level-2 own-percentages sum to 100 for each Type,
the sub-class rows under that parent sum exactly to the parent's row value
for every profile and both types — in particular within tolerance 1e-9. -/
theorem claim_C4_parent_sum_invariant (L : Dict (String → AllocType → ℚ))
    (E F : Dict (AllocType → ℚ)) (SK : List String)
    (hfind : ∀ k ∈ SK, (Dict.find? L k).isSome = true)
    (hE : "Equities" ∈ SK) (hF : "Fixed Income" ∈ SK)
    (hdE : ∀ k ∈ SK, k ∉ E.map Prod.fst)
    (hdF : ∀ k ∈ SK, k ∉ F.map Prod.fst)
    (hndE : (E.map Prod.fst).Nodup) (hndF : (F.map Prod.fst).Nodup)
    (hEF : ∀ k ∈ E.map Prod.fst, k ∉ F.map Prod.fst)
    (hsumE : ∀ ty, (E.map (fun kv => kv.2 ty)).sum = 100)
    (hsumF : ∀ ty, (F.map (fun kv => kv.2 ty)).sum = 100) :
    (compute_total_allocations L E F SK).isSome = true ∧
    ∀ (p : String) (ty : AllocType),
      ((E.map (fun kv => cellD (totalD L E F SK) kv.1 p ty)).sum
          = cellD (totalD L E F SK) "Equities" p ty ∧
        |(E.map (fun kv => cellD (totalD L E F SK) kv.1 p ty)).sum
          - cellD (totalD L E F SK) "Equities" p ty| ≤ 1 / 1000000000) ∧
      ((F.map (fun kv => cellD (totalD L E F SK) kv.1 p ty)).sum
          = cellD (totalD L E F SK) "Fixed Income" p ty ∧
        |(F.map (fun kv => cellD (totalD L E F SK) kv.1 p ty)).sum
          - cellD (totalD L E F SK) "Fixed Income" p ty| ≤ 1 / 1000000000) := by
  have hisSome : (compute_total_allocations L E F SK).isSome = true := by
    obtain ⟨t1, _, hct, _⟩ := total_spec L E F SK hfind
    rw [hct]
    rfl
  obtain ⟨rE, hrE, hallE⟩ := total_equities_subrows L E F SK hfind hE hdE hndE hEF
  obtain ⟨rF, hrF, hallF⟩ := total_fixedincome_subrows L E F SK hfind hF hdE hdF hndF
  have hparents := total_level1_rows L E F SK hfind hdE hdF
  refine ⟨hisSome, fun p ty => ?_⟩
  obtain ⟨rE2, hrE2, hrowE2⟩ := hparents "Equities" hE
  obtain ⟨rF2, hrF2, hrowF2⟩ := hparents "Fixed Income" hF
  have hrEeq : rE2 = rE := Option.some.inj (hrE2.symm.trans hrE)
  have hrFeq : rF2 = rF := Option.some.inj (hrF2.symm.trans hrF)
  have hcellE : cellD (totalD L E F SK) "Equities" p ty = rE p ty := by
    rw [cellD, hrowE2 p ty, Option.getD_some, hrEeq]
  have hcellF : cellD (totalD L E F SK) "Fixed Income" p ty = rF p ty := by
    rw [cellD, hrowF2 p ty, Option.getD_some, hrFeq]
  have hmapE : E.map (fun kv => cellD (totalD L E F SK) kv.1 p ty)
      = E.map (fun kv => kv.2 ty * rE p ty / 100) := by
    apply List.map_congr_left
    intro kv hkv
    rw [cellD, hallE kv hkv p ty, Option.getD_some]
  have hmapF : F.map (fun kv => cellD (totalD L E F SK) kv.1 p ty)
      = F.map (fun kv => kv.2 ty * rF p ty / 100) := by
    apply List.map_congr_left
    intro kv hkv
    rw [cellD, hallF kv hkv p ty, Option.getD_some]
  have hEq : (E.map (fun kv => cellD (totalD L E F SK) kv.1 p ty)).sum
      = cellD (totalD L E F SK) "Equities" p ty := by
    rw [hmapE, sum_map_mul_div E (fun kv => kv.2 ty) (rE p ty), hsumE ty,
      hcellE]
    ring
  have hFq : (F.map (fun kv => cellD (totalD L E F SK) kv.1 p ty)).sum
      = cellD (totalD L E F SK) "Fixed Income" p ty := by
    rw [hmapF, sum_map_mul_div F (fun kv => kv.2 ty) (rF p ty), hsumF ty,
      hcellF]
    ring
  refine ⟨⟨hEq, ?_⟩, hFq, ?_⟩
  · rw [hEq, sub_self, abs_zero]
    norm_num
  · rw [hFq, sub_self, abs_zero]
    norm_num

/-- C4 witness: the two equities sub-class rows sum to the `Equities`
parent row in the Moderate tactical column. -/
theorem claim_C4_witness :
    (sampleEquities.map (fun kv => cellD (totalD sampleLevel1 sampleEquities
        sampleFixedIncome sampleStrategicKeys) kv.1 "Moderate"
        AllocType.tactical)).sum
      = cellD (totalD sampleLevel1 sampleEquities sampleFixedIncome
          sampleStrategicKeys) "Equities" "Moderate" AllocType.tactical :=
  ((claim_C4_parent_sum_invariant sampleLevel1 sampleEquities
    sampleFixedIncome sampleStrategicKeys
    (by decide) (by decide) (by decide) (by decide) (by decide) (by decide)
    (by decide) (by decide)
    (by intro ty; cases ty <;> norm_num [sampleEquities])
    (by intro ty; cases ty <;> norm_num [sampleFixedIncome])).2
    "Moderate" AllocType.tactical).1.1

end TAA
